import Mathlib

/-!
Verification of the MEGA downloader core (`src/utils/mega.py`) of
ColabUniversalDownloader: a shallow embedding of the key-derivation,
attribute-decryption, node-tree resolution and streaming-decryption logic,
together with theorems settling the specification's claims about it.

Bytes are modelled as `List Nat` (each element a byte value), 32-bit words as
`Nat` (callers produce them via `_bytes_to_a32`, so they are < 2^32).
Python exceptions are modelled explicitly with `Except PyExn`.
-/

namespace Mega

/-- Python exceptions that the embedded code can raise. -/
inductive PyExn : Type where
  | unboundLocal : PyExn
  | valueError : String → PyExn
  | validationError : String → PyExn
  | networkError : String → PyExn
deriving DecidableEq

/-- Big-endian byte encoding of `x` on `n` bytes; model of Python
`x.to_bytes(n, "big")` for `x < 256 ^ n` (the only way the code calls it). -/
def toBytesBE (n : Nat) (x : Nat) : List Nat :=
  (List.range n).map (fun i => x / 256 ^ (n - 1 - i) % 256)

/-- Big-endian interpretation of a byte list; model of
`int.from_bytes(b, "big")`. -/
def fromBytesBE (b : List Nat) : Nat :=
  b.foldl (fun acc d => acc * 256 + d) 0

/-- Grouping step of `_bytes_to_a32`: read 4 bytes at a time as big-endian
words (the input has been padded to a multiple of 4, so no remainder). -/
def bytesToWords : List Nat → List Nat
  | b0 :: b1 :: b2 :: b3 :: rest => fromBytesBE [b0, b1, b2, b3] :: bytesToWords rest
  | _ => []

/-- Model of `_bytes_to_a32` (src/utils/mega.py lines 104-108): zero-pad the
byte string to a multiple of 4 and read big-endian 32-bit words. -/
def _bytes_to_a32 (b : List Nat) : List Nat :=
  bytesToWords (b ++ List.replicate ((4 - b.length % 4) % 4) 0)

/-- Model of `_a32_to_bytes` (lines 111-112): concatenation of the 4-byte
big-endian encodings of the words. -/
def _a32_to_bytes (a : List Nat) : List Nat :=
  (a.map (toBytesBE 4)).flatten

/-- Model of `_xor_a32` (lines 115-116): pointwise XOR; Python `zip`
truncates to the shorter list, as `List.zipWith` does. -/
def _xor_a32 (a b : List Nat) : List Nat :=
  List.zipWith Nat.xor a b

/-- Model of `_derive_key_iv_from_k` (lines 119-131).  Exactly 4 words: the
words themselves are the key, the IV is 8 zero bytes.  At least 8 words: the
key is the XOR of words 0-3 with words 4-7 and the IV is the bytes of words
4-5.  Any other length falls through both `if`s with the local `key` never
assigned, so the function's `return key, iv` raises `UnboundLocalError`; the
`raise ValidationError("Invalid MEGA file key")` on line 131 sits after the
unconditional `return` on line 130 and is unreachable. -/
def _derive_key_iv_from_k (k_a32 : List Nat) : Except PyExn (List Nat × List Nat) :=
  if k_a32.length = 4 then
    .ok (_a32_to_bytes k_a32, List.replicate 8 0)
  else if 8 ≤ k_a32.length then
    .ok (_a32_to_bytes (_xor_a32 (k_a32.take 4) ((k_a32.drop 4).take 4)),
         _a32_to_bytes ((k_a32.drop 4).take 2))
  else
    .error .unboundLocal

/-- C1: the spec says key derivation fails with a validation error when the
word count is neither 4 nor at least 8.  On the 5-word input `[1,2,3,4,5]`
the code instead raises `UnboundLocalError` — a different exception type,
not the typed `ValidationError` — because the local `key` is read by
`return key, iv` without ever being assigned: the `raise ValidationError`
statement is dead code placed after the `return`. -/
theorem derive_key_five_words_unbound_local :
    _derive_key_iv_from_k [1, 2, 3, 4, 5] = .error .unboundLocal := by
  rfl

/-- C7: for exactly 4 words the derived key is the bytes of the words and
the IV is 8 zero bytes; for at least 8 words the key is the bytes of the
XOR of words 0-3 with words 4-7 and the IV is the bytes of words 4 and 5. -/
theorem derive_key_iv_rules (k : List Nat) :
    (k.length = 4 →
      _derive_key_iv_from_k k = .ok (_a32_to_bytes k, List.replicate 8 0)) ∧
    (8 ≤ k.length →
      _derive_key_iv_from_k k =
        .ok (_a32_to_bytes
               [k.getD 0 0 ^^^ k.getD 4 0, k.getD 1 0 ^^^ k.getD 5 0,
                k.getD 2 0 ^^^ k.getD 6 0, k.getD 3 0 ^^^ k.getD 7 0],
             _a32_to_bytes [k.getD 4 0, k.getD 5 0])) := by
  constructor
  · intro h4
    simp [_derive_key_iv_from_k, h4]
  · intro h8
    rcases k with _ | ⟨k0, _ | ⟨k1, _ | ⟨k2, _ | ⟨k3, _ | ⟨k4, _ | ⟨k5, _ | ⟨k6, _ | ⟨k7, rest⟩⟩⟩⟩⟩⟩⟩⟩ <;>
        simp only [List.length_nil, List.length_cons] at h8 <;>
      first
        | omega
        | · simp only [_derive_key_iv_from_k, List.length_cons]
            rw [if_neg (by omega), if_pos (by omega)]
            rfl

/-- Witness for C7: both derivation rules evaluated at concrete key
material of lengths 4 and 8. -/
theorem derive_key_iv_rules_witness :
    _derive_key_iv_from_k [1, 2, 3, 4] = .ok (_a32_to_bytes [1, 2, 3, 4], List.replicate 8 0) ∧
    _derive_key_iv_from_k [1, 2, 3, 4, 5, 6, 7, 8] =
      .ok (_a32_to_bytes [1 ^^^ 5, 2 ^^^ 6, 3 ^^^ 7, 4 ^^^ 8], _a32_to_bytes [5, 6]) :=
  ⟨(derive_key_iv_rules [1, 2, 3, 4]).1 rfl,
   (derive_key_iv_rules [1, 2, 3, 4, 5, 6, 7, 8]).2 (by decide)⟩

/-!
AES-CTR streaming decryption (C2).

`download_file` (lines 276-304) creates one cipher per file:
`AES.new(key_bytes, AES.MODE_CTR, nonce=iv8, initial_value=0)` and calls
`cipher.decrypt(chunk)` on each network chunk in stream order.  In
pycryptodome's CTR mode with an 8-byte nonce, the keystream is the
concatenation of `E(nonce ++ counter_j)` where `E` is the AES block
encryption under the file key, `counter_j` the 8-byte big-endian encoding
of the block index `j` starting at `initial_value = 0`; `decrypt` XORs the
input with the keystream at the cipher's current byte position and advances
that position.  The AES block permutation itself is opaque to this code, so
it is a parameter `E` here; every theorem holds for all `E`. -/

/-- Counter block fed to the block cipher for block index `j`
(8-byte nonce followed by the 8-byte big-endian block counter). -/
def counterBlock (nonce : List Nat) (j : Nat) : List Nat :=
  nonce ++ toBytesBE 8 j

/-- Byte `i` of the CTR keystream: byte `i % 16` of the encrypted counter
block of index `i / 16`. -/
def ksByte (E : List Nat → List Nat) (nonce : List Nat) (i : Nat) : Nat :=
  (E (counterBlock nonce (i / 16))).getD (i % 16) 0

/-- One `cipher.decrypt(data)` call of a CTR cipher whose current byte
position is `pos`: XOR the data with the keystream starting at `pos`. -/
def ctrDecryptFrom (E : List Nat → List Nat) (nonce : List Nat) :
    Nat → List Nat → List Nat
  | _, [] => []
  | pos, b :: rest => (b ^^^ ksByte E nonce pos) :: ctrDecryptFrom E nonce (pos + 1) rest

/-- The download loop of `download_file` (lines 285-289): the single
per-file cipher is fed network chunks in stream order (empty chunks are
skipped) and the decrypted chunks are written out in order; the cipher's
byte position advances by the length of each chunk. -/
def feedChunks (E : List Nat → List Nat) (nonce : List Nat) :
    Nat → List (List Nat) → List Nat
  | _, [] => []
  | pos, c :: cs =>
    if c.isEmpty then feedChunks E nonce pos cs
    else ctrDecryptFrom E nonce pos c ++ feedChunks E nonce (pos + c.length) cs

theorem ctrDecryptFrom_append (E : List Nat → List Nat) (nonce : List Nat)
    (a b : List Nat) (pos : Nat) :
    ctrDecryptFrom E nonce pos (a ++ b) =
      ctrDecryptFrom E nonce pos a ++ ctrDecryptFrom E nonce (pos + a.length) b := by
  induction a generalizing pos with
  | nil => simp [ctrDecryptFrom]
  | cons x xs ih =>
    simp only [List.cons_append, ctrDecryptFrom, List.length_cons, List.cons.injEq, true_and]
    rw [show xs.append b = xs ++ b from rfl, ih (pos + 1),
        show pos + 1 + xs.length = pos + (xs.length + 1) from by omega]

/-- C2: streaming AES-CTR decryption with one cipher per file is chunking-
invariant: feeding the chunks of a stream one by one yields exactly the
decryption of the whole concatenated stream, for every block cipher `E`,
every nonce, and every partition of the stream into chunks — so any two
partitions with the same concatenation decrypt to the same plaintext. -/
theorem feedChunks_eq_ctr_flatten (E : List Nat → List Nat) (nonce : List Nat)
    (cs : List (List Nat)) (pos : Nat) :
    feedChunks E nonce pos cs = ctrDecryptFrom E nonce pos cs.flatten := by
  induction cs generalizing pos with
  | nil => simp [feedChunks, ctrDecryptFrom]
  | cons c cs ih =>
    by_cases hc : c.isEmpty
    · have hnil : c = [] := by simpa [List.isEmpty_iff] using hc
      simp [feedChunks, hc, hnil, ih]
    · simp [feedChunks, hc, ctrDecryptFrom_append, ih]

/-!
Attribute decryption (C5).

`_decrypt_attrs` (lines 134-146) base64-decodes the blob, decrypts it with
AES-CBC under a zero 16-byte IV, checks the 4-byte `MEGA` marker, strips
trailing zero padding and parses the rest as UTF-8 JSON, returning the
empty mapping on marker mismatch or on any parse failure.  The function is
modelled here from the ciphertext bytes on (the output of
`_mega_b64_decode`); the AES block decryption `D` under the 16-byte key
and the JSON parser `jparse` (returning `none` where `json.loads` or
`bytes.decode` raises) are parameters.  pycryptodome's
`cipher.decrypt(data)` in CBC mode raises `ValueError` whenever the data
length is not a multiple of the 16-byte block size — that exception is NOT
caught by `_decrypt_attrs` (only the final parse is inside `try`). -/

/-- The decrypted attribute mapping (`json.loads` result). -/
def Attrs : Type := List (String × String)

/-- CBC decryption chain: plaintext block `i` is `D(C_i) XOR C_(i-1)` with
the zero IV as `C_(-1)`.  Structured on a fuel argument (the data length
amply bounds the number of 16-byte blocks). -/
def cbcChain (D : List Nat → List Nat) : Nat → List Nat → List Nat → List Nat
  | 0, _, _ => []
  | _ + 1, _, [] => []
  | f + 1, prev, b :: rest =>
    List.zipWith Nat.xor (D ((b :: rest).take 16)) prev ++
      cbcChain D f ((b :: rest).take 16) ((b :: rest).drop 16)

/-- AES-CBC decryption with a zero IV, as `AES.new(key, MODE_CBC,
iv=16*b"\x00").decrypt(data)` computes it on block-aligned data. -/
def cbcPlain (D : List Nat → List Nat) (data : List Nat) : List Nat :=
  cbcChain D data.length (List.replicate 16 0) data

/-- The 4-byte magic marker `b"MEGA"`. -/
def megaMarker : List Nat := [77, 69, 71, 65]

/-- Python `bytes.rstrip(b"\x00")`: drop trailing zero bytes. -/
def rstripZeros (l : List Nat) : List Nat :=
  (l.reverse.dropWhile (fun b => b = 0)).reverse

/-- Model of `_decrypt_attrs` (lines 134-146) from the decoded ciphertext
bytes on.  `D` is the AES block decryption under the given 16-byte key;
`jparse` models `json.loads` on the UTF-8 decoded remainder (`none` when
decoding or parsing raises, which the code catches and turns into the
empty mapping).  A ciphertext whose length is not a multiple of 16 makes
`cipher.decrypt` itself raise `ValueError`, outside any `try`. -/
def _decrypt_attrs (D : List Nat → List Nat) (jparse : List Nat → Option Attrs)
    (data : List Nat) : Except PyExn Attrs :=
  if data.length % 16 = 0 then
    let dec := cbcPlain D data
    if dec.take 4 = megaMarker then
      match jparse (rstripZeros (dec.drop 4)) with
      | some attrs => .ok attrs
      | none => .ok []
    else .ok []
  else .error (.valueError "Data must be padded to 16 byte boundary in CBC mode")

/-- C5 counterexample: the claim says attribute decryption never raises for
any input, but on the 1-byte ciphertext `[0]` (the decoding of the blob
`"AA"`) with a 16-byte key, `cipher.decrypt` raises `ValueError` because
the data is not block-aligned — with the identity block cipher and a parser
that always fails, concretely evaluated. -/
theorem decrypt_attrs_raises_on_unaligned :
    _decrypt_attrs (fun b => b) (fun _ => none) [0] =
      .error (.valueError "Data must be padded to 16 byte boundary in CBC mode") := by
  rfl

/-- C5 (amended): for every block cipher, parser, and block-aligned
ciphertext, attribute decryption never raises; it returns the empty
mapping when the plaintext does not start with the `MEGA` marker, and the
empty mapping when the marker-stripped zero-trimmed remainder fails to
parse. -/
theorem decrypt_attrs_degrades_gracefully (D : List Nat → List Nat)
    (jparse : List Nat → Option Attrs) (data : List Nat)
    (halign : data.length % 16 = 0) :
    (∃ a, _decrypt_attrs D jparse data = .ok a) ∧
    ((cbcPlain D data).take 4 ≠ megaMarker → _decrypt_attrs D jparse data = .ok []) ∧
    (jparse (rstripZeros ((cbcPlain D data).drop 4)) = none →
      _decrypt_attrs D jparse data = .ok []) := by
  simp only [_decrypt_attrs, if_pos halign]
  refine ⟨?_, ?_, ?_⟩
  · by_cases hm : (cbcPlain D data).take 4 = megaMarker
    · simp only [hm, if_pos rfl]
      cases hj : jparse (rstripZeros ((cbcPlain D data).drop 4)) <;> simp [hj]
    · exact ⟨[], by simp [hm]⟩
  · intro hm
    simp [hm]
  · intro hj
    by_cases hm : (cbcPlain D data).take 4 = megaMarker <;> simp [hm, hj]

/-- Witness for C5 (amended): a concrete 16-byte ciphertext (all zero
bytes), identity block cipher, failing parser: block-aligned, and the
decryption concretely returns the empty mapping without raising. -/
theorem decrypt_attrs_degrades_gracefully_witness :
    (List.replicate 16 0 : List Nat).length % 16 = 0 ∧
      _decrypt_attrs (fun b => b) (fun _ => none) (List.replicate 16 0) = .ok [] :=
  ⟨by decide,
   (decrypt_attrs_degrades_gracefully (fun b => b) (fun _ => none)
     (List.replicate 16 0) (by decide)).2.1 (by decide)⟩

/-!
Name fallback (C9).

`download_file` (lines 256-259) starts from the literal default
`name = "file"` and only replaces it when the decrypted attributes carry a
truthy `"n"` value: `name = str(attrs.get("n") or name)`.
`download_folder` (line 434) instead uses `name = names.get(h, h)`: the
fallback there is the node id. -/

/-- Python `dict` lookup on an association list built by repeated
assignment: the LAST binding of the key wins. -/
def dictGet (m : List (String × String)) (k : String) : Option String :=
  match m with
  | [] => none
  | (k', v) :: rest =>
    match dictGet rest k with
    | some v' => some v'
    | none => if k' = k then some v else none

/-- Python `dict.get(k, d)`. -/
def dictGetD (m : List (String × String)) (k d : String) : String :=
  (dictGet m k).getD d

/-- The filename chosen by `download_file` (lines 256-259): `atField` is
`none` when the API response has no `"at"` field, otherwise the decrypted
attribute mapping; `attrs.get("n") or "file"` falls back to the literal
`"file"` when `"n"` is missing or empty. -/
def downloadFileName (atField : Option Attrs) : String :=
  match atField with
  | none => "file"
  | some attrs =>
    match dictGet attrs "n" with
    | some nm => if nm = "" then "file" else nm
    | none => "file"

/-- The entry name chosen by `download_folder` (line 434):
`names.get(h, h)`. -/
def folderEntryName (names : List (String × String)) (h : String) : String :=
  dictGetD names h h

/-- C9 counterexample: for a single-file download of node id `"abcdefgh"`
whose attribute decryption yields the empty mapping, the claim says the
name falls back to the node id, but the code computes the literal name
`"file"`, which is not the node id. -/
theorem download_file_name_not_node_id :
    downloadFileName (some []) = "file" ∧ ("file" : String) ≠ "abcdefgh" := by
  refine ⟨rfl, ?_⟩
  decide

/-- C9 (amended): when no name is resolvable, a folder-listing entry falls
back to the node id, while a single-file download falls back to the
constant name `"file"` (not the node id); either way a name is produced
and processing continues. -/
theorem name_fallbacks (names : List (String × String)) (h : String)
    (hmiss : dictGet names h = none) :
    folderEntryName names h = h ∧
      (∀ attrs : Attrs, dictGet attrs "n" = none → downloadFileName (some attrs) = "file") := by
  constructor
  · simp [folderEntryName, dictGetD, hmiss]
  · intro attrs hn
    simp [downloadFileName, hn]

/-- Witness for C9 (amended): the empty names map misses `"abcdefgh"`, the
folder entry name is then the id itself and the file name is `"file"`. -/
theorem name_fallbacks_witness :
    dictGet [] "abcdefgh" = none ∧
      (folderEntryName [] "abcdefgh" = "abcdefgh" ∧
        (∀ attrs : Attrs, dictGet attrs "n" = none → downloadFileName (some attrs) = "file")) :=
  ⟨rfl, name_fallbacks [] "abcdefgh" rfl⟩

/-!
Progress events of a single-file transfer (C8).

`download_file` emits a `starting` event (line 265), one `downloading`
event per nonempty network chunk (lines 300-302), and a final `done` event
(lines 308-319) that is only reached when the streaming loop finishes
without a `requests` exception; such an exception is re-raised as
`NetworkError` (lines 305-306) before the `done` emission. -/

/-- Lifecycle stage carried by an emitted event. -/
inductive Stage : Type where
  | starting : Stage
  | downloading : Stage
  | done : Stage
deriving DecidableEq

/-- One emitted progress event (stage and cumulative decrypted bytes). -/
structure PEvent where
  stage : Stage
  downloaded : Nat
deriving DecidableEq

/-- Outcome of the streaming HTTP body: either the full list of chunks
arrives, or a `requests` exception interrupts the stream after a prefix of
chunks. -/
inductive StreamOutcome : Type where
  | success : List (List Nat) → StreamOutcome
  | failAfter : List (List Nat) → StreamOutcome

/-- The `downloading` events of the chunk loop: one per nonempty chunk,
carrying the cumulative byte count. -/
def chunkEvents : Nat → List (List Nat) → List PEvent
  | _, [] => []
  | dl, c :: cs =>
    if c.isEmpty then chunkEvents dl cs
    else ⟨.downloading, dl + c.length⟩ :: chunkEvents (dl + c.length) cs

/-- The full event trace of `download_file` (lines 265-319) together with
the raised exception, if any: `starting`, then the loop's `downloading`
events; a successful stream ends with exactly one `done` event, while a
`requests` exception is re-raised as `NetworkError` and skips it. -/
def downloadFileEvents (size : Nat) : StreamOutcome → List PEvent × Option PyExn
  | .success cs => (⟨.starting, 0⟩ :: chunkEvents 0 cs ++ [⟨.done, size⟩], none)
  | .failAfter cs => (⟨.starting, 0⟩ :: chunkEvents 0 cs, some (.networkError "stream interrupted"))

/-- C8: a single-file transfer emits exactly one `done` event when the
stream completes successfully, and none when it fails with a network error
at any point (in which case the network error is raised instead). -/
theorem done_event_iff_success (size : Nat) (oc : StreamOutcome) :
    (downloadFileEvents size oc).1.countP (fun e => e.stage = Stage.done) =
      (match oc with
       | .success _ => 1
       | .failAfter _ => 0) ∧
    (match oc with
     | .success _ => (downloadFileEvents size oc).2 = none
     | .failAfter _ => ∃ msg, (downloadFileEvents size oc).2 = some (.networkError msg)) := by
  have hchunk : ∀ (dl : Nat) (cs : List (List Nat)),
      (chunkEvents dl cs).countP (fun e => e.stage = Stage.done) = 0 := by
    intro dl cs
    induction cs generalizing dl with
    | nil => simp [chunkEvents]
    | cons c cs ih =>
      by_cases hc : c.isEmpty <;> simp [chunkEvents, hc, ih, List.countP_cons, Stage.downloading]
  cases oc with
  | success cs =>
    refine ⟨?_, rfl⟩
    simp [downloadFileEvents, List.countP_cons, List.countP_append, hchunk]
  | failAfter cs =>
    refine ⟨?_, ⟨"stream interrupted", rfl⟩⟩
    simp [downloadFileEvents, List.countP_cons, hchunk]

/-!
Node-tree resolution (C3, C4, C6, C10).

`download_folder` (lines 324-506) lists the folder's nodes, indexes them by
handle, decrypts per-node keys and names, reconstructs paths by walking
parent pointers, optionally scopes the listing to a target subfolder via a
stack-based reachability walk, and processes the eligible file nodes in
listing order.  The model below covers the resolver part of that pipeline
(network fetch and filesystem writes abstracted away); the AES primitives,
the base64 decoding of key payloads and the attribute decryption are
parameters collected in `FolderEnv`. -/

/-- One node dict of a folder listing; each field is `n.get(...)`, with
`none` for a missing (or non-string / non-conforming) value.  Non-dict
listing entries are skipped by every loop of `download_folder`
(`isinstance(n, dict)` guards), so a listing is modelled as the list of
its dict entries. -/
structure MNode where
  h : Option String
  p : Option String
  t : Option Nat
  k : Option String
  a : Option String
deriving DecidableEq

/-- Abstract cryptographic environment of the folder pipeline: `b64` is
`_mega_b64_decode` on the key payload (`none` where `base64.b64decode`
raises), `ecb` the AES-ECB decryption under the shared folder key on
block-aligned data, and `attrdec kb blob` the attribute mapping
`_decrypt_attrs(blob, kb)` returns (its byte-level model is
`_decrypt_attrs` above; the folder pipeline only consumes the resulting
mapping). -/
structure FolderEnv where
  b64 : String → Option (List Nat)
  ecb : List Nat → List Nat
  attrdec : List Nat → String → Attrs

/-- `by_h` (lines 350-354): Python dict built by `by_h[n.get("h")] = n` in
listing order, so the last node with a given handle wins; keyed by the
possibly-missing handle. -/
def byH (nodes : List MNode) (q : Option String) : Option MNode :=
  match nodes with
  | [] => none
  | n :: rest =>
    match byH rest q with
    | some m => some m
    | none => if n.h = q then some n else none

/-- The characters after the last `:` (the whole list when no `:`
occurs): Python `k.split(":")[-1]` on the character list. -/
def lastSegmentChars (cs : List Char) : List Char :=
  (cs.reverse.takeWhile (fun c => c ≠ ':')).reverse

/-- Python `k.split(":")[-1]`: the substring after the last colon. -/
def lastSegment (s : String) : String :=
  ⟨lastSegmentChars s.data⟩

/-- Model of `node_key_bytes` (lines 356-368): last `:`-separated segment
of the `k` field, base64-decoded and AES-ECB-decrypted with the shared
folder key; a 32-byte result is XOR-folded into 16 bytes, anything else
keeps its first 16 bytes.  Every exception inside the `try` (non-string
field, bad base64, ciphertext not block-aligned) yields `None`. -/
def nodeKeyBytes (env : FolderEnv) (n : MNode) : Option (List Nat) :=
  match n.k with
  | none => none
  | some k =>
    match env.b64 (lastSegment k) with
    | none => none
    | some enc =>
      if enc.length % 16 = 0 then
        let dec := env.ecb enc
        if dec.length = 32 then
          some (List.zipWith Nat.xor (dec.take 16) ((dec.drop 16).take 16))
        else some (dec.take 16)
      else none

/-- One step of the name-decryption loop (lines 371-383): a node
contributes `(h, name)` only when its handle is a string, its key
decrypts to a truthy (nonempty) byte string, its attribute field is a
string, and the decrypted attributes carry a nonempty name. -/
def nameEntry (env : FolderEnv) (n : MNode) : Option (String × String) :=
  match n.h with
  | none => none
  | some h =>
    match nodeKeyBytes env n with
    | none => none
    | some kb =>
      if kb.isEmpty then none
      else
        match n.a with
        | none => none
        | some ab =>
          match dictGet (env.attrdec kb ab) "n" with
          | some nm => if nm = "" then none else some (h, nm)
          | none => none

/-- The `names` dict (lines 371-383) as an association list in listing
order (lookup by `dictGet` keeps Python's last-write-wins semantics). -/
def buildNames (env : FolderEnv) : List MNode → List (String × String)
  | [] => []
  | n :: rest =>
    match nameEntry env n with
    | some e => e :: buildNames env rest
    | none => buildNames env rest

/-- `names.get(hid, "")` where `hid = cur.get("h")` may be missing. -/
def nameOf (names : List (String × String)) (hid : Option String) : String :=
  match hid with
  | none => ""
  | some h => dictGetD names h ""

/-- The while-loop of `full_path` (lines 388-397): step to the parent
while it is present in `by_h`, collecting the names of folder ancestors
(type tag 1, nonempty resolvable name), stopping early once the target
subfolder is reached.  The Python loop is unbounded (it would never
terminate on a cyclic parent chain); `fuel` bounds it here, and the
theorems below evaluate it on concrete forests or hold for every fuel. -/
def fullPathLoop (byh : Option String → Option MNode) (names : List (String × String))
    (target : Option String) : Nat → Option MNode → List String → List String
  | 0, _, parts => parts
  | _ + 1, none, parts => parts
  | f + 1, some c, parts =>
    match byh c.p with
    | none => parts
    | some c' =>
      let parts' :=
        if c'.t = some 1 ∧ nameOf names c'.h ≠ "" then parts ++ [nameOf names c'.h] else parts
      if c'.t = some 1 ∧ target ≠ none ∧ c'.h = target then parts'
      else fullPathLoop byh names target f (some c') parts'

/-- Model of `full_path` (lines 385-398): ancestor folder names outermost
first (`Path(*reversed(parts))` as a segment list). -/
def fullPathParts (byh : Option String → Option MNode) (names : List (String × String))
    (target : Option String) (F : Nat) (h : String) : List String :=
  (fullPathLoop byh names target F (byh (some h)) []).reverse

/-- `children_map` (lines 402-405) looked up at `v`: handles of the nodes
whose parent field is `v`, in listing order (nodes lacking a string handle
or parent are never inserted). -/
def childrenOf (nodes : List MNode) (v : String) : List String :=
  nodes.filterMap (fun n =>
    match n.h, n.p with
    | some h, some p => if p = v then some h else none
    | _, _ => none)

/-- Every handle inserted anywhere in `children_map`; a superset of each
per-key child list, bounding the stack growth of the reachability walk. -/
def allChildIds (nodes : List MNode) : List String :=
  nodes.filterMap (fun n =>
    match n.h, n.p with
    | some h, some _ => some h
    | _, _ => none)

/-- The stack-based reachability walk (lines 406-414) on explicit fuel:
pop, skip if visited, otherwise mark visited and push the children
(Python appends and pops from the end of its list, so the last child is
processed first: the head here is the top of the stack).  `none` models
fuel exhaustion; `walkFuel_total` below shows the chosen bound never
exhausts, matching the always-terminating Python loop. -/
def walkFuel (children : String → List String) :
    Nat → List String → List String → Option (List String)
  | _, [], visited => some visited
  | 0, _ :: _, _ => none
  | f + 1, cur :: rest, visited =>
    if cur ∈ visited then walkFuel children f rest visited
    else walkFuel children f ((children cur).reverse ++ rest) (cur :: visited)

/-- Fuel that always suffices for the reachability walk (proved in
`walkFuel_total`). -/
def walkFuelBound (nodes : List MNode) (target : String) : Nat :=
  (target :: allChildIds nodes).dedup.length * ((allChildIds nodes).length + 1) + 1

/-- The `allowed` descendant set of the target subfolder (lines 400-414),
as the list of visited ids. -/
def allowedCompute (nodes : List MNode) (target : String) : Option (List String) :=
  walkFuel (childrenOf nodes) (walkFuelBound nodes target) [target] []

/-- One output entry of the node-tree resolver: node id, resolved relative
path segments (ending in the node's name), derived key and IV. -/
structure MEntry where
  h : String
  rel : List String
  key : List Nat
  iv : List Nat
deriving DecidableEq

/-- The relative path of an eligible file node (lines 434-443):
`full_path(h) / name`; when a target subfolder is set and present in
`by_h`, the segments before the first occurrence of the target
subfolder's NAME are stripped (`parts.index` / slice). -/
def relPathOf (byh : Option String → Option MNode) (names : List (String × String))
    (target : Option String) (F : Nat) (h : String) : List String :=
  let rel := fullPathParts byh names target F h ++ [dictGetD names h h]
  match target with
  | some t =>
    if (byh (some t)).isSome then
      let tn := dictGetD names t ""
      if tn ≠ "" ∧ tn ∈ rel then rel.drop (rel.indexOf tn) else rel
    else rel
  | none => rel

/-- Per-node processing of the results loop (lines 421-443): `continue`
(`none`) past non-file nodes, nodes without a string handle, nodes outside
the allowed set, and nodes whose key fails to decrypt or is empty
(`if not kb`); otherwise derive key and IV from the decrypted node key —
an exception there would crash the whole listing — and emit the resolver
entry. -/
def processNode (byh : Option String → Option MNode) (names : List (String × String))
    (allowed : Option (List String)) (target : Option String) (F : Nat)
    (env : FolderEnv) (n : MNode) : Option (Except PyExn MEntry) :=
  if n.t ≠ some 0 then none
  else
    match n.h with
    | none => none
    | some h =>
      if (match allowed with | some al => decide (h ∉ al) | none => false) then none
      else
        match nodeKeyBytes env n with
        | none => none
        | some kb =>
          if kb.isEmpty then none
          else
            match _derive_key_iv_from_k (_bytes_to_a32 kb) with
            | .ok (key, iv) => some (.ok ⟨h, relPathOf byh names target F h, key, iv⟩)
            | .error e => some (.error e)

/-- The results loop over the listing in order; an exception raised while
processing one node aborts the remainder (as the Python loop would). -/
def eligibleLoop (byh : Option String → Option MNode) (names : List (String × String))
    (allowed : Option (List String)) (target : Option String) (F : Nat)
    (env : FolderEnv) : List MNode → Except PyExn (List MEntry)
  | [] => .ok []
  | n :: rest =>
    match processNode byh names allowed target F env n with
    | none => eligibleLoop byh names allowed target F env rest
    | some (.error e) => .error e
    | some (.ok ent) =>
      match eligibleLoop byh names allowed target F env rest with
      | .ok es => .ok (ent :: es)
      | .error e => .error e

/-- The node-tree resolver of `download_folder` (lines 344-450, network
fetch and filesystem writes abstracted): ordered entries (id, relative
path, key, IV) of the eligible file nodes.  `allowed` stays `None` unless
a target subfolder is given and present in `by_h` (lines 400-401); the
fuel-exhaustion branch of `allowedCompute` also maps to `none` but is
unreachable by `walkFuel_total`. -/
def allowedOf (nodes : List MNode) (target : Option String) : Option (List String) :=
  match target with
  | some t => if (byH nodes (some t)).isSome then allowedCompute nodes t else none
  | none => none

def eligibleEntries (env : FolderEnv) (F : Nat) (nodes : List MNode)
    (target : Option String) : Except PyExn (List MEntry) :=
  eligibleLoop (byH nodes) (buildNames env nodes) (allowedOf nodes target) target F env nodes

/-!
The synthetic forest of C3 and C4: `root(folder) → A(folder) → B(folder)
→ f.txt(file)`, with every per-node key and every attribute name
decryptable.  The concrete environment decodes every key payload to 16
zero bytes (so each node key is valid) and decrypts each attribute blob to
a mapping whose name is the blob string itself. -/

/-- Concrete environment for the synthetic forest: all keys decodable,
every attribute blob decrypts to its own string as the name. -/
def envC : FolderEnv :=
  { b64 := fun _ => some (List.replicate 16 0)
  , ecb := fun l => l
  , attrdec := fun _ ab => [("n", ab)] }

/-- The root folder of the synthetic tree (no parent in the listing). -/
def rootN : MNode := ⟨some "rootroot", none, some 1, some "k:x", some "root"⟩

/-- Folder `A`, child of the root. -/
def nodeA : MNode := ⟨some "AAAAAAAA", some "rootroot", some 1, some "k:x", some "A"⟩

/-- Folder `B`, child of `A`. -/
def nodeB : MNode := ⟨some "BBBBBBBB", some "AAAAAAAA", some 1, some "k:x", some "B"⟩

/-- File `f.txt`, child of `B`. -/
def nodeF : MNode := ⟨some "FFFFFFFF", some "BBBBBBBB", some 0, some "k:x", some "f.txt"⟩

/-- The synthetic listing, in listing order. -/
def forest : List MNode := [rootN, nodeA, nodeB, nodeF]

/-- C3 counterexample: on the synthetic forest with no target subfolder,
the resolver's path for `f.txt` is `root/A/B/f.txt` — the parent-chain
walk also collects the outermost root folder's decryptable name — and not
`A/B/f.txt` as claimed. -/
theorem full_path_includes_root :
    eligibleEntries envC 10 forest none =
      .ok [⟨"FFFFFFFF", ["root", "A", "B", "f.txt"],
            List.replicate 16 0, List.replicate 8 0⟩] ∧
    (["root", "A", "B", "f.txt"] : List String) ≠ ["A", "B", "f.txt"] := by
  constructor
  · rfl
  · decide

/-- C3 (amended): on the synthetic forest with no target subfolder, the
path resolved for `f.txt` is `root/A/B/f.txt`: the concatenation of ALL
decryptable ancestor folder names present in the listing — including the
outermost root — followed by the file's own name. -/
theorem full_path_synthetic_tree :
    fullPathParts (byH forest) (buildNames envC forest) none 10 "FFFFFFFF" =
      ["root", "A", "B"] ∧
    eligibleEntries envC 10 forest none =
      .ok [⟨"FFFFFFFF", ["root", "A", "B", "f.txt"],
            List.replicate 16 0, List.replicate 8 0⟩] := by
  constructor <;> rfl

/-- C4 counterexample: with target subfolder `B`, the eligible set is
exactly the file `f.txt` (the only file descendant of `B`), but its
resolved path is `B/f.txt` — the walk appends `B`'s own name before
breaking, and the final name-based strip keeps it — not `f.txt` as
claimed. -/
theorem subfolder_path_keeps_target_segment :
    eligibleEntries envC 10 forest (some "BBBBBBBB") =
      .ok [⟨"FFFFFFFF", ["B", "f.txt"], List.replicate 16 0, List.replicate 8 0⟩] ∧
    (["B", "f.txt"] : List String) ≠ ["f.txt"] := by
  constructor
  · rfl
  · decide

/-- C4 (amended): with target subfolder `B`, the eligible file set is
exactly the file descendants of `B` (here `f.txt`, computed by the
stack-based reachability walk), and the resolved path starts at `B`
itself: `B/f.txt`, relative to `B`'s parent rather than to `B`. -/
theorem subfolder_scoping_synthetic_tree :
    allowedCompute forest "BBBBBBBB" = some ["FFFFFFFF", "BBBBBBBB"] ∧
    eligibleEntries envC 10 forest (some "BBBBBBBB") =
      .ok [⟨"FFFFFFFF", ["B", "f.txt"], List.replicate 16 0, List.replicate 8 0⟩] := by
  constructor <;> rfl

/-!
Termination and correctness of the reachability walk (C10). -/

/-- Reachability from `root` along the `children` edges (the transitive
reflexive closure of the parent→children relation the walk follows). -/
inductive Reaches (children : String → List String) (root : String) : String → Prop
  | refl : Reaches children root root
  | step : ∀ {v c}, Reaches children root v → c ∈ children v → Reaches children root c

theorem nodup_subset_length_le {l u : List String} (hnd : l.Nodup)
    (hsub : ∀ x ∈ l, x ∈ u) : l.length ≤ u.dedup.length := by
  have h1 : l.toFinset.card = l.length := List.toFinset_card_of_nodup hnd
  have h2 : l.toFinset ⊆ u.toFinset := by
    intro x hx
    rw [List.mem_toFinset] at hx ⊢
    exact hsub x hx
  have h3 : u.toFinset.card = u.dedup.length := List.card_toFinset u
  calc l.length = l.toFinset.card := h1.symm
    _ ≤ u.toFinset.card := Finset.card_le_card h2
    _ = u.dedup.length := h3

theorem walkFuel_ne_none (children : String → List String) (U : List String) (C : Nat)
    (hU : ∀ v, v ∈ U → ∀ c, c ∈ children v → c ∈ U)
    (hC : ∀ v, (children v).length ≤ C) :
    ∀ fuel stack visited, (∀ x ∈ stack, x ∈ U) → (∀ x ∈ visited, x ∈ U) →
      visited.Nodup →
      (U.dedup.length - visited.length) * (C + 1) + stack.length ≤ fuel →
      walkFuel children fuel stack visited ≠ none := by
  intro fuel
  induction fuel with
  | zero =>
    intro stack visited _ _ _ hb
    cases stack with
    | nil => simp [walkFuel]
    | cons cur rest =>
      exfalso
      simp only [List.length_cons] at hb
      omega
  | succ f ih =>
    intro stack visited hs hv hnd hb
    cases stack with
    | nil => simp [walkFuel]
    | cons cur rest =>
      simp only [walkFuel]
      by_cases hcur : cur ∈ visited
      · rw [if_pos hcur]
        apply ih rest visited (fun x hx => hs x (List.mem_cons_of_mem cur hx)) hv hnd
        simp only [List.length_cons] at hb
        omega
      · rw [if_neg hcur]
        have hcurU : cur ∈ U := hs cur (List.mem_cons_self _ _)
        have hlt : visited.length + 1 ≤ U.dedup.length := by
          have : (cur :: visited).Nodup := List.nodup_cons.mpr ⟨hcur, hnd⟩
          have := nodup_subset_length_le this (by
            intro x hx
            rcases List.mem_cons.mp hx with hx | hx
            · exact hx ▸ hcurU
            · exact hv x hx)
          simpa using this
        apply ih ((children cur).reverse ++ rest) (cur :: visited)
        · intro x hx
          rcases List.mem_append.mp hx with hx | hx
          · exact hU cur hcurU x (List.mem_reverse.mp hx)
          · exact hs x (List.mem_cons_of_mem cur hx)
        · intro x hx
          rcases List.mem_cons.mp hx with hx | hx
          · exact hx ▸ hcurU
          · exact hv x hx
        · exact List.nodup_cons.mpr ⟨hcur, hnd⟩
        · have harith : (U.dedup.length - visited.length) * (C + 1) =
              (U.dedup.length - (visited.length + 1)) * (C + 1) + (C + 1) := by
            rw [show U.dedup.length - visited.length =
                (U.dedup.length - (visited.length + 1)) + 1 from by omega]
            ring
          have hcv : (children cur).length ≤ C := hC cur
          simp only [List.length_append, List.length_reverse, List.length_cons] at hb ⊢
          omega

theorem childrenOf_mem_allChildIds (nodes : List MNode) (v c : String)
    (hc : c ∈ childrenOf nodes v) : c ∈ allChildIds nodes := by
  induction nodes with
  | nil => simp [childrenOf] at hc
  | cons n rest ih =>
    simp only [childrenOf, List.filterMap_cons] at hc
    simp only [allChildIds, List.filterMap_cons]
    rcases hh : n.h with _ | h <;> rcases hp : n.p with _ | p <;>
      simp only [hh, hp] at hc ⊢
    · exact ih hc
    · exact ih hc
    · exact ih hc
    · by_cases hpv : p = v
      · rw [if_pos hpv] at hc
        rcases List.mem_cons.mp hc with hc | hc
        · exact List.mem_cons.mpr (Or.inl hc)
        · exact List.mem_cons.mpr (Or.inr (ih hc))
      · rw [if_neg hpv] at hc
        exact List.mem_cons.mpr (Or.inr (ih hc))

theorem childrenOf_length_le (nodes : List MNode) (v : String) :
    (childrenOf nodes v).length ≤ (allChildIds nodes).length := by
  induction nodes with
  | nil => simp [childrenOf, allChildIds]
  | cons n rest ih =>
    simp only [childrenOf, allChildIds, List.filterMap_cons]
    rcases hh : n.h with _ | h <;> rcases hp : n.p with _ | p <;> simp only
    · exact ih
    · exact ih
    · exact ih
    · by_cases hpv : p = v
      · rw [if_pos hpv]
        simp only [List.length_cons]
        exact Nat.succ_le_succ ih
      · rw [if_neg hpv]
        simp only [List.length_cons]
        exact le_trans ih (Nat.le_succ _)

/-- The walk's fuel bound suffices: the `allowed` computation never hits
the fuel-exhaustion branch (the Python loop always terminates, visited
guard included, even on cyclic or self-referential parent pointers). -/
theorem walkFuel_total (nodes : List MNode) (target : String) :
    allowedCompute nodes target ≠ none := by
  apply walkFuel_ne_none (childrenOf nodes) (target :: allChildIds nodes)
      (allChildIds nodes).length
  · intro v _ c hc
    exact List.mem_cons_of_mem _ (childrenOf_mem_allChildIds nodes v c hc)
  · intro v
    exact childrenOf_length_le nodes v
  · intro x hx
    simp only [List.mem_singleton.mp hx]; exact List.mem_cons_self _ _
  · intro x hx
    simp at hx
  · exact List.nodup_nil
  · simp [walkFuelBound]

theorem walkFuel_visited_subset (children : String → List String) :
    ∀ fuel stack visited vs, walkFuel children fuel stack visited = some vs →
      (∀ x ∈ visited, x ∈ vs) ∧ (∀ x ∈ stack, x ∈ vs) := by
  intro fuel
  induction fuel with
  | zero =>
    intro stack visited vs hw
    cases stack with
    | nil =>
      simp only [walkFuel, Option.some.injEq] at hw
      subst hw
      exact ⟨fun x hx => hx, fun x hx => by simp at hx⟩
    | cons cur rest => simp [walkFuel] at hw
  | succ f ih =>
    intro stack visited vs hw
    cases stack with
    | nil =>
      simp only [walkFuel, Option.some.injEq] at hw
      subst hw
      exact ⟨fun x hx => hx, fun x hx => by simp at hx⟩
    | cons cur rest =>
      simp only [walkFuel] at hw
      by_cases hcur : cur ∈ visited
      · rw [if_pos hcur] at hw
        obtain ⟨h1, h2⟩ := ih rest visited vs hw
        refine ⟨h1, fun x hx => ?_⟩
        rcases List.mem_cons.mp hx with hx | hx
        · exact hx ▸ h1 cur hcur
        · exact h2 x hx
      · rw [if_neg hcur] at hw
        obtain ⟨h1, h2⟩ := ih _ _ vs hw
        refine ⟨fun x hx => h1 x (List.mem_cons_of_mem cur hx), fun x hx => ?_⟩
        rcases List.mem_cons.mp hx with hx | hx
        · exact hx ▸ h1 cur (List.mem_cons_self _ _)
        · exact h2 x (List.mem_append.mpr (Or.inr hx))

theorem walkFuel_closed (children : String → List String) :
    ∀ fuel stack visited vs, walkFuel children fuel stack visited = some vs →
      (∀ v ∈ visited, ∀ c ∈ children v, c ∈ visited ∨ c ∈ stack) →
      ∀ v ∈ vs, ∀ c ∈ children v, c ∈ vs := by
  intro fuel
  induction fuel with
  | zero =>
    intro stack visited vs hw hinv
    cases stack with
    | nil =>
      simp only [walkFuel, Option.some.injEq] at hw
      subst hw
      intro v hv c hc
      rcases hinv v hv c hc with h | h
      · exact h
      · simp at h
    | cons cur rest => simp [walkFuel] at hw
  | succ f ih =>
    intro stack visited vs hw hinv
    cases stack with
    | nil =>
      simp only [walkFuel, Option.some.injEq] at hw
      subst hw
      intro v hv c hc
      rcases hinv v hv c hc with h | h
      · exact h
      · simp at h
    | cons cur rest =>
      simp only [walkFuel] at hw
      by_cases hcur : cur ∈ visited
      · rw [if_pos hcur] at hw
        apply ih rest visited vs hw
        intro v hv c hc
        rcases hinv v hv c hc with h | h
        · exact Or.inl h
        · rcases List.mem_cons.mp h with h | h
          · exact Or.inl (h ▸ hcur)
          · exact Or.inr h
      · rw [if_neg hcur] at hw
        apply ih _ _ vs hw
        intro v hv c hc
        rcases List.mem_cons.mp hv with hv | hv
        · subst hv
          exact Or.inr (List.mem_append.mpr (Or.inl (List.mem_reverse.mpr hc)))
        · rcases hinv v hv c hc with h | h
          · exact Or.inl (List.mem_cons_of_mem cur h)
          · rcases List.mem_cons.mp h with h | h
            · exact Or.inl (h ▸ List.mem_cons_self _ _)
            · exact Or.inr (List.mem_append.mpr (Or.inr h))

theorem walkFuel_sound (children : String → List String) (R : String → Prop)
    (hstep : ∀ v c, R v → c ∈ children v → R c) :
    ∀ fuel stack visited vs, walkFuel children fuel stack visited = some vs →
      (∀ x ∈ visited, R x) → (∀ x ∈ stack, R x) →
      ∀ x ∈ vs, R x := by
  intro fuel
  induction fuel with
  | zero =>
    intro stack visited vs hw hvR hsR
    cases stack with
    | nil =>
      simp only [walkFuel, Option.some.injEq] at hw
      subst hw
      exact hvR
    | cons cur rest => simp [walkFuel] at hw
  | succ f ih =>
    intro stack visited vs hw hvR hsR
    cases stack with
    | nil =>
      simp only [walkFuel, Option.some.injEq] at hw
      subst hw
      exact hvR
    | cons cur rest =>
      simp only [walkFuel] at hw
      by_cases hcur : cur ∈ visited
      · rw [if_pos hcur] at hw
        exact ih rest visited vs hw hvR (fun x hx => hsR x (List.mem_cons_of_mem cur hx))
      · rw [if_neg hcur] at hw
        have hcurR : R cur := hsR cur (List.mem_cons_self _ _)
        apply ih _ _ vs hw
        · intro x hx
          rcases List.mem_cons.mp hx with hx | hx
          · exact hx ▸ hcurR
          · exact hvR x hx
        · intro x hx
          rcases List.mem_append.mp hx with hx | hx
          · exact hstep cur x hcurR (List.mem_reverse.mp hx)
          · exact hsR x (List.mem_cons_of_mem cur hx)

/-- The set computed by the walk is exactly the ids reachable from the
start along the children edges. -/
theorem walkFuel_mem_iff (children : String → List String) (root : String)
    (fuel : Nat) (vs : List String)
    (hw : walkFuel children fuel [root] [] = some vs) :
    ∀ x, x ∈ vs ↔ Reaches children root x := by
  intro x
  constructor
  · intro hx
    refine walkFuel_sound children (Reaches children root)
      (fun v c hv hc => Reaches.step hv hc) fuel [root] [] vs hw ?_ ?_ x hx
    · intro y hy
      simp at hy
    · intro y hy
      rcases List.mem_singleton.mp hy with rfl
      exact Reaches.refl
  · intro hr
    induction hr with
    | refl =>
      exact (walkFuel_visited_subset children fuel [root] [] vs hw).2 root
        (List.mem_cons_self _ _)
    | step hv hc ihv =>
      exact walkFuel_closed children fuel [root] [] vs hw
        (by intro v hv' c' hc'; simp at hv') _ ihv _ hc

/-- C10: the stack-based descendant walk of `download_folder`
(lines 400-414) terminates for every finite node list — cyclic or
self-referential parent pointers included, thanks to the visited guard —
and the set it returns is exactly the set of node ids reachable from the
target subfolder over the parent→children edges. -/
theorem allowed_walk_terminates_and_is_reachable_set (nodes : List MNode) (target : String) :
    allowedCompute nodes target ≠ none ∧
      ∀ x, x ∈ (allowedCompute nodes target).getD [] ↔
        Reaches (childrenOf nodes) target x := by
  refine ⟨walkFuel_total nodes target, ?_⟩
  obtain ⟨vs, hvs⟩ := Option.ne_none_iff_exists'.mp (walkFuel_total nodes target)
  rw [hvs]
  simpa using walkFuel_mem_iff (childrenOf nodes) target (walkFuelBound nodes target) vs hvs

/-!
Isolation of per-node key failures (C6).

A node whose key blob fails to decrypt is skipped by the name loop and by
the results loop; the lemmas below show that inserting such a node into a
listing (with a fresh handle that no other node uses as its parent)
changes neither the index, the names, the descendant walk, nor the
resolver output for the sibling nodes. -/

theorem byH_eq_some_mem (nodes : List MNode) (q : Option String) (m : MNode)
    (h : byH nodes q = some m) : m ∈ nodes := by
  induction nodes with
  | nil => simp [byH] at h
  | cons n rest ih =>
    simp only [byH] at h
    cases hr : byH rest q with
    | some m' =>
      rw [hr] at h
      exact List.mem_cons_of_mem n (ih (hr.trans h))
    | none =>
      rw [hr] at h
      by_cases hq : n.h = q
      · rw [if_pos hq] at h
        exact List.mem_cons.mpr (Or.inl (Option.some.inj h).symm)
      · rw [if_neg hq] at h
        exact absurd h (by simp)

theorem byH_middle (ns1 ns2 : List MNode) (bad : MNode) (q : Option String)
    (hq : q ≠ bad.h) : byH (ns1 ++ bad :: ns2) q = byH (ns1 ++ ns2) q := by
  induction ns1 with
  | nil =>
    simp only [List.nil_append, byH]
    cases hr : byH ns2 q with
    | some m => rfl
    | none =>
      rw [if_neg (fun hc => hq hc.symm)]
  | cons n rest ih =>
    simp only [List.cons_append, byH]
    rw [show rest.append (bad :: ns2) = rest ++ bad :: ns2 from rfl,
        show rest.append ns2 = rest ++ ns2 from rfl, ih]

theorem nameEntry_none_of_key (env : FolderEnv) (n : MNode)
    (hkb : nodeKeyBytes env n = none) : nameEntry env n = none := by
  unfold nameEntry
  cases n.h with
  | none => rfl
  | some h => rw [hkb]

theorem buildNames_middle (env : FolderEnv) (ns1 ns2 : List MNode) (bad : MNode)
    (hbad : nameEntry env bad = none) :
    buildNames env (ns1 ++ bad :: ns2) = buildNames env (ns1 ++ ns2) := by
  induction ns1 with
  | nil =>
    simp only [List.nil_append, buildNames, hbad]
  | cons n rest ih =>
    simp only [List.cons_append, buildNames]
    rw [show rest.append (bad :: ns2) = rest ++ bad :: ns2 from rfl,
        show rest.append ns2 = rest ++ ns2 from rfl, ih]

theorem childSel_eq_some (n : MNode) (v c : String) :
    (match n.h, n.p with
     | some h, some p => if p = v then some h else none
     | _, _ => none) = some c ↔ (n.h = some c ∧ n.p = some v) := by
  rcases hh : n.h with _ | h <;> rcases hp : n.p with _ | p <;> simp only [hh, hp]
  · simp
  · simp
  · simp
  · by_cases hpv : p = v <;> simp [hpv]

theorem mem_childrenOf (nodes : List MNode) (v c : String) :
    c ∈ childrenOf nodes v ↔ ∃ n, n ∈ nodes ∧ n.h = some c ∧ n.p = some v := by
  simp only [childrenOf, List.mem_filterMap]
  constructor
  · rintro ⟨n, hn, hsel⟩
    exact ⟨n, hn, (childSel_eq_some n v c).mp hsel⟩
  · rintro ⟨n, hn, h1, h2⟩
    exact ⟨n, hn, (childSel_eq_some n v c).mpr ⟨h1, h2⟩⟩

theorem reaches_of_reaches_mid (ns1 ns2 : List MNode) (bad : MNode) (bh : String)
    (hbh : bad.h = some bh)
    (hp : ∀ m ∈ ns1 ++ bad :: ns2, m.p ≠ some bh)
    (t x : String)
    (hr : Reaches (childrenOf (ns1 ++ bad :: ns2)) t x) (hx : x ≠ bh) :
    Reaches (childrenOf (ns1 ++ ns2)) t x := by
  induction hr with
  | refl => exact Reaches.refl
  | @step v c hv hc ihv =>
    by_cases hvb : v = bh
    · exfalso
      subst hvb
      obtain ⟨n, hn, _, hnp⟩ := (mem_childrenOf _ v c).mp hc
      exact hp n hn hnp
    · obtain ⟨n, hn, hnh, hnp⟩ := (mem_childrenOf _ v c).mp hc
      have hnO : n ∈ ns1 ++ ns2 := by
        rcases List.mem_append.mp hn with h1 | h1
        · exact List.mem_append.mpr (Or.inl h1)
        · rcases List.mem_cons.mp h1 with h1 | h1
          · exfalso
            subst h1
            rw [hbh] at hnh
            exact hx (Option.some.inj hnh).symm
          · exact List.mem_append.mpr (Or.inr h1)
      exact Reaches.step (ihv hvb) ((mem_childrenOf _ v c).mpr ⟨n, hnO, hnh, hnp⟩)

theorem reaches_mid_of_reaches (ns1 ns2 : List MNode) (bad : MNode)
    (t x : String) (hr : Reaches (childrenOf (ns1 ++ ns2)) t x) :
    Reaches (childrenOf (ns1 ++ bad :: ns2)) t x := by
  induction hr with
  | refl => exact Reaches.refl
  | @step v c hv hc ihv =>
    obtain ⟨n, hn, hnh, hnp⟩ := (mem_childrenOf _ v c).mp hc
    have hnW : n ∈ ns1 ++ bad :: ns2 := by
      rcases List.mem_append.mp hn with h1 | h1
      · exact List.mem_append.mpr (Or.inl h1)
      · exact List.mem_append.mpr (Or.inr (List.mem_cons_of_mem bad h1))
    exact Reaches.step ihv ((mem_childrenOf _ v c).mpr ⟨n, hnW, hnh, hnp⟩)

theorem fullPathLoop_congr (byh1 byh2 : Option String → Option MNode)
    (names : List (String × String)) (target : Option String) (bh : String)
    (hag : ∀ q, q ≠ some bh → byh1 q = byh2 q)
    (hmem : ∀ q m, byh1 q = some m → m.p ≠ some bh) :
    ∀ F cur parts, (∀ c, cur = some c → c.p ≠ some bh) →
      fullPathLoop byh1 names target F cur parts =
        fullPathLoop byh2 names target F cur parts := by
  intro F
  induction F with
  | zero => intro cur parts _; rfl
  | succ f ih =>
    intro cur parts hcur
    cases cur with
    | none => rfl
    | some c =>
      simp only [fullPathLoop]
      rw [← hag c.p (hcur c rfl)]
      cases hc' : byh1 c.p with
      | none => rfl
      | some c' =>
        simp only
        split
        · rfl
        · exact ih (some c') _ (fun d hd => (Option.some.inj hd) ▸ hmem c.p c' hc')

theorem processNode_none_of_key (byh : Option String → Option MNode)
    (names : List (String × String)) (allowed : Option (List String))
    (target : Option String) (F : Nat) (env : FolderEnv) (n : MNode)
    (hkb : nodeKeyBytes env n = none) :
    processNode byh names allowed target F env n = none := by
  unfold processNode
  by_cases ht : n.t ≠ some 0
  · rw [if_pos ht]
  · rw [if_neg ht]
    cases n.h with
    | none => rfl
    | some h =>
      simp only
      split
      · rfl
      · rw [hkb]

theorem eligibleLoop_congr (byh1 byh2 : Option String → Option MNode)
    (names1 names2 : List (String × String)) (al1 al2 : Option (List String))
    (target : Option String) (F : Nat) (env : FolderEnv) (l : List MNode)
    (hpn : ∀ n ∈ l, processNode byh1 names1 al1 target F env n =
      processNode byh2 names2 al2 target F env n) :
    eligibleLoop byh1 names1 al1 target F env l =
      eligibleLoop byh2 names2 al2 target F env l := by
  induction l with
  | nil => rfl
  | cons n rest ih =>
    simp only [eligibleLoop]
    rw [hpn n (List.mem_cons_self _ _),
        ih (fun m hm => hpn m (List.mem_cons_of_mem n hm))]

theorem eligibleLoop_skip_middle (byh : Option String → Option MNode)
    (names : List (String × String)) (allowed : Option (List String))
    (target : Option String) (F : Nat) (env : FolderEnv)
    (ns1 ns2 : List MNode) (bad : MNode)
    (hbad : processNode byh names allowed target F env bad = none) :
    eligibleLoop byh names allowed target F env (ns1 ++ bad :: ns2) =
      eligibleLoop byh names allowed target F env (ns1 ++ ns2) := by
  induction ns1 with
  | nil =>
    simp only [List.nil_append, eligibleLoop, hbad]
  | cons n rest ih =>
    simp only [List.cons_append, eligibleLoop]
    rw [show rest.append (bad :: ns2) = rest ++ bad :: ns2 from rfl,
        show rest.append ns2 = rest ++ ns2 from rfl, ih]

theorem eligibleLoop_ok_mem (byh : Option String → Option MNode)
    (names : List (String × String)) (allowed : Option (List String))
    (target : Option String) (F : Nat) (env : FolderEnv) :
    ∀ (l : List MNode) (es : List MEntry),
      eligibleLoop byh names allowed target F env l = .ok es →
      ∀ e ∈ es, ∃ n ∈ l, processNode byh names allowed target F env n = some (.ok e) := by
  intro l
  induction l with
  | nil =>
    intro es hes e he
    simp only [eligibleLoop, Except.ok.injEq] at hes
    subst hes
    simp at he
  | cons n rest ih =>
    intro es hes e he
    simp only [eligibleLoop] at hes
    cases hpn : processNode byh names allowed target F env n with
    | none =>
      rw [hpn] at hes
      obtain ⟨m, hm, hpm⟩ := ih es hes e he
      exact ⟨m, List.mem_cons_of_mem n hm, hpm⟩
    | some r =>
      rw [hpn] at hes
      cases r with
      | error err => simp at hes
      | ok ent =>
        simp only at hes
        cases hrest : eligibleLoop byh names allowed target F env rest with
        | error err => rw [hrest] at hes; simp at hes
        | ok es' =>
          rw [hrest] at hes
          simp only [Except.ok.injEq] at hes
          subst hes
          rcases List.mem_cons.mp he with he | he
          · exact ⟨n, List.mem_cons_self _ _, by rw [hpn, he]⟩
          · obtain ⟨m, hm, hpm⟩ := ih es' hrest e he
            exact ⟨m, List.mem_cons_of_mem n hm, hpm⟩

theorem processNode_ok_handle (byh : Option String → Option MNode)
    (names : List (String × String)) (allowed : Option (List String))
    (target : Option String) (F : Nat) (env : FolderEnv) (n : MNode) (e : MEntry)
    (h : processNode byh names allowed target F env n = some (.ok e)) :
    n.h = some e.h := by
  unfold processNode at h
  by_cases ht : n.t ≠ some 0
  · rw [if_pos ht] at h
    exact absurd h (by simp)
  · rw [if_neg ht] at h
    cases hnh : n.h with
    | none => rw [hnh] at h; exact absurd h (by simp)
    | some hd =>
      rw [hnh] at h
      simp only at h
      split at h
      · exact absurd h (by simp)
      · cases hkb : nodeKeyBytes env n with
        | none => rw [hkb] at h; exact absurd h (by simp)
        | some kb =>
          rw [hkb] at h
          simp only at h
          split at h
          · exact absurd h (by simp)
          · cases hd' : _derive_key_iv_from_k (_bytes_to_a32 kb) with
            | ok kv =>
              rw [hd'] at h
              obtain ⟨key, iv⟩ := kv
              simp only [Option.some.injEq, Except.ok.injEq] at h
              rw [← h]
            | error err =>
              rw [hd'] at h
              simp at h

/-- C6: in a folder listing, a node whose per-node key blob fails to
decrypt (handle `bh`, fresh in the listing, used by no node as a parent
and not the scoping target) is excluded from the resolver output, while
every sibling node is processed exactly as if the failing node were not
present — same entries, same order, same paths — so a single node's key
failure is never fatal to the listing; and no returned entry carries the
failing node's id. -/
theorem bad_key_node_isolated (env : FolderEnv) (F : Nat) (ns1 ns2 : List MNode)
    (bad : MNode) (bh : String) (target : Option String)
    (hkb : nodeKeyBytes env bad = none)
    (hbh : bad.h = some bh)
    (hh : ∀ m ∈ ns1 ++ ns2, m.h ≠ some bh)
    (hp : ∀ m ∈ ns1 ++ bad :: ns2, m.p ≠ some bh)
    (ht : target ≠ some bh) :
    eligibleEntries env F (ns1 ++ bad :: ns2) target =
      eligibleEntries env F (ns1 ++ ns2) target ∧
    ∀ es, eligibleEntries env F (ns1 ++ bad :: ns2) target = .ok es →
      ∀ e ∈ es, e.h ≠ bh := by
  have hag : ∀ q, q ≠ some bh → byH (ns1 ++ bad :: ns2) q = byH (ns1 ++ ns2) q := by
    intro q hq
    exact byH_middle ns1 ns2 bad q (by rw [hbh]; exact hq)
  have hnames : buildNames env (ns1 ++ bad :: ns2) = buildNames env (ns1 ++ ns2) :=
    buildNames_middle env ns1 ns2 bad (nameEntry_none_of_key env bad hkb)
  have hmemW : ∀ q m, byH (ns1 ++ bad :: ns2) q = some m → m.p ≠ some bh := by
    intro q m hm
    exact hp m (byH_eq_some_mem _ _ _ hm)
  have hOW : ∀ m ∈ ns1 ++ ns2, m ∈ ns1 ++ bad :: ns2 := by
    intro m hm
    rcases List.mem_append.mp hm with h1 | h1
    · exact List.mem_append.mpr (Or.inl h1)
    · exact List.mem_append.mpr (Or.inr (List.mem_cons_of_mem bad h1))
  have hal : (allowedOf (ns1 ++ bad :: ns2) target = none ∧
        allowedOf (ns1 ++ ns2) target = none) ∨
      (∃ vsW vsO, allowedOf (ns1 ++ bad :: ns2) target = some vsW ∧
        allowedOf (ns1 ++ ns2) target = some vsO ∧
        ∀ x, x ≠ bh → (x ∈ vsW ↔ x ∈ vsO)) := by
    cases target with
    | none => exact Or.inl ⟨rfl, rfl⟩
    | some t =>
      have htb : (some t : Option String) ≠ some bh := ht
      have hbt : byH (ns1 ++ bad :: ns2) (some t) = byH (ns1 ++ ns2) (some t) :=
        hag (some t) htb
      by_cases his : (byH (ns1 ++ ns2) (some t)).isSome
      · obtain ⟨vsW, hvsW⟩ :=
          Option.ne_none_iff_exists'.mp (walkFuel_total (ns1 ++ bad :: ns2) t)
        obtain ⟨vsO, hvsO⟩ :=
          Option.ne_none_iff_exists'.mp (walkFuel_total (ns1 ++ ns2) t)
        refine Or.inr ⟨vsW, vsO, ?_, ?_, ?_⟩
        · show (if (byH (ns1 ++ bad :: ns2) (some t)).isSome
              then allowedCompute (ns1 ++ bad :: ns2) t else none) = some vsW
          rw [hbt, if_pos his]
          exact hvsW
        · show (if (byH (ns1 ++ ns2) (some t)).isSome
              then allowedCompute (ns1 ++ ns2) t else none) = some vsO
          rw [if_pos his]
          exact hvsO
        · intro x hxb
          have h1 := walkFuel_mem_iff (childrenOf (ns1 ++ bad :: ns2)) t
            (walkFuelBound (ns1 ++ bad :: ns2) t) vsW hvsW x
          have h2 := walkFuel_mem_iff (childrenOf (ns1 ++ ns2)) t
            (walkFuelBound (ns1 ++ ns2) t) vsO hvsO x
          constructor
          · intro hx
            exact h2.mpr (reaches_of_reaches_mid ns1 ns2 bad bh hbh hp t x (h1.mp hx) hxb)
          · intro hx
            exact h1.mpr (reaches_mid_of_reaches ns1 ns2 bad t x (h2.mp hx))
      · refine Or.inl ⟨?_, ?_⟩
        · show (if (byH (ns1 ++ bad :: ns2) (some t)).isSome
              then allowedCompute (ns1 ++ bad :: ns2) t else none) = none
          rw [hbt, if_neg his]
        · show (if (byH (ns1 ++ ns2) (some t)).isSome
              then allowedCompute (ns1 ++ ns2) t else none) = none
          rw [if_neg his]
  have hrel : ∀ h : String, h ≠ bh →
      relPathOf (byH (ns1 ++ bad :: ns2)) (buildNames env (ns1 ++ ns2)) target F h =
        relPathOf (byH (ns1 ++ ns2)) (buildNames env (ns1 ++ ns2)) target F h := by
    intro h hhb
    have hfp : fullPathParts (byH (ns1 ++ bad :: ns2)) (buildNames env (ns1 ++ ns2))
          target F h =
        fullPathParts (byH (ns1 ++ ns2)) (buildNames env (ns1 ++ ns2)) target F h := by
      unfold fullPathParts
      rw [hag (some h) (by simp [hhb])]
      congr 1
      apply fullPathLoop_congr _ _ _ _ bh hag hmemW
      intro c hc
      exact hp c (hOW c (byH_eq_some_mem _ _ _ hc))
    unfold relPathOf
    cases target with
    | none => rw [hfp]
    | some t =>
      rw [hfp]
      simp only [hag (some t) ht]
  have hproc : ∀ n ∈ ns1 ++ ns2,
      processNode (byH (ns1 ++ bad :: ns2)) (buildNames env (ns1 ++ ns2))
          (allowedOf (ns1 ++ bad :: ns2) target) target F env n =
        processNode (byH (ns1 ++ ns2)) (buildNames env (ns1 ++ ns2))
          (allowedOf (ns1 ++ ns2) target) target F env n := by
    intro n hn
    unfold processNode
    by_cases hT : n.t ≠ some 0
    · rw [if_pos hT, if_pos hT]
    · rw [if_neg hT, if_neg hT]
      cases hnh : n.h with
      | none => rfl
      | some h =>
        have hhb : h ≠ bh := by
          intro hc
          exact hh n hn (by rw [hnh, hc])
        have hguard :
            (match allowedOf (ns1 ++ bad :: ns2) target with
             | some al => decide (h ∉ al)
             | none => false) =
            (match allowedOf (ns1 ++ ns2) target with
             | some al => decide (h ∉ al)
             | none => false) := by
          rcases hal with ⟨h1, h2⟩ | ⟨vsW, vsO, h1, h2, h3⟩
          · rw [h1, h2]
          · rw [h1, h2]
            simp only [decide_eq_decide]
            exact not_congr (h3 h hhb)
        simp only
        rw [hguard]
        cases hg : (match allowedOf (ns1 ++ ns2) target with
            | some al => decide (h ∉ al)
            | none => false) with
        | true => simp only [if_true]
        | false =>
          simp only [Bool.false_eq_true, if_false]
          cases hkb2 : nodeKeyBytes env n with
          | none => rfl
          | some kb =>
            simp only
            by_cases hke : kb.isEmpty
            · rw [if_pos hke, if_pos hke]
            · rw [if_neg hke, if_neg hke]
              cases hdv : _derive_key_iv_from_k (_bytes_to_a32 kb) with
              | error e => rfl
              | ok kv =>
                obtain ⟨key, iv⟩ := kv
                simp only
                rw [hrel h hhb]
  have hmain : eligibleEntries env F (ns1 ++ bad :: ns2) target =
      eligibleEntries env F (ns1 ++ ns2) target := by
    show eligibleLoop (byH (ns1 ++ bad :: ns2)) (buildNames env (ns1 ++ bad :: ns2))
        (allowedOf (ns1 ++ bad :: ns2) target) target F env (ns1 ++ bad :: ns2) =
      eligibleLoop (byH (ns1 ++ ns2)) (buildNames env (ns1 ++ ns2))
        (allowedOf (ns1 ++ ns2) target) target F env (ns1 ++ ns2)
    rw [hnames]
    rw [eligibleLoop_skip_middle _ _ _ _ _ _ ns1 ns2 bad
      (processNode_none_of_key _ _ _ _ _ _ bad hkb)]
    exact eligibleLoop_congr _ _ _ _ _ _ _ _ _ _ hproc
  refine ⟨hmain, ?_⟩
  intro es hes e he
  obtain ⟨n, hn, hpn⟩ := eligibleLoop_ok_mem (byH (ns1 ++ bad :: ns2))
    (buildNames env (ns1 ++ bad :: ns2)) (allowedOf (ns1 ++ bad :: ns2) target)
    target F env (ns1 ++ bad :: ns2) es hes e he
  have hneh : n.h = some e.h := processNode_ok_handle _ _ _ _ _ _ _ _ hpn
  rcases List.mem_append.mp hn with h1 | h1
  · intro hc
    exact hh n (List.mem_append.mpr (Or.inl h1)) (by rw [hneh, hc])
  · rcases List.mem_cons.mp h1 with h1 | h1
    · exfalso
      rw [h1] at hpn
      rw [processNode_none_of_key _ _ _ _ _ _ bad hkb] at hpn
      exact absurd hpn (by simp)
    · intro hc
      exact hh n (List.mem_append.mpr (Or.inr h1)) (by rw [hneh, hc])

/-- Environment of the C6 witness: only the key payload `"GOOD"` base64-
decodes (to 16 zero bytes); every other payload raises inside the `try`
of `node_key_bytes`. -/
def envW : FolderEnv :=
  { b64 := fun s => if s = "GOOD" then some (List.replicate 16 0) else none
  , ecb := fun l => l
  , attrdec := fun _ _ => [] }

/-- Valid sibling file node of the C6 witness. -/
def sibW : MNode := ⟨some "SIBSIBSI", none, some 0, some "h:GOOD", none⟩

/-- File node of the C6 witness whose key payload fails to decode. -/
def badW : MNode := ⟨some "BADBADBA", none, some 0, some "h:BAD", none⟩

/-- Witness for C6: a concrete two-node listing — a valid file node and a
file node whose key payload fails to base64-decode — in which the failing
node's key is `None`, the resolver output with the bad node present equals
the output without it, and the valid sibling is returned. -/
theorem bad_key_node_isolated_witness :
    nodeKeyBytes envW badW = none ∧
    (eligibleEntries envW 10 [sibW, badW] none = eligibleEntries envW 10 [sibW] none ∧
      ∀ es, eligibleEntries envW 10 [sibW, badW] none = .ok es → ∀ e ∈ es, e.h ≠ "BADBADBA") ∧
    eligibleEntries envW 10 [sibW] none =
      .ok [⟨"SIBSIBSI", ["SIBSIBSI"], List.replicate 16 0, List.replicate 8 0⟩] := by
  refine ⟨by decide, ?_, by rfl⟩
  exact bad_key_node_isolated envW 10 [sibW] [] badW "BADBADBA" none (by decide) rfl
    (by intro m hm; simp at hm; rw [hm]; decide)
    (by intro m hm; simp at hm; rcases hm with hm | hm <;> rw [hm] <;> decide)
    (by simp)

end Mega
